import Mathlib

/-!
Verification of the langSwitch real-time language-switching pipeline.

The definitions below are shallow embeddings of the Python sources:
`src/language_detector.py`, `src/main.py`, `src/realtime_working.py`,
`src/approach_4_realtime_fixed.py`, `src/simple_working.py`,
`src/audio_handler.py`.  Audio samples and confidence scores are
modelled as rationals (the float32 operations involved - division and
multiplication by the power of two 32768, comparison with a threshold -
are exact on the int16-derived values that occur, so ℚ is a faithful
model); byte strings are lists of naturals below 256; external
collaborators (the language-ID model, the Vosk recognizer) are
parameters, with their failure modes made explicit.
-/

/-- `LanguageDetector.is_confidence_high` (language_detector.py line 54-56):
`confidence >= self.confidence_threshold`. -/
def is_confidence_high (threshold confidence : ℚ) : Bool :=
  decide (threshold ≤ confidence)

/-- `LanguageDetector.detect_language` (language_detector.py lines 28-52):
if the model failed to load, return `("en", 0.0)`; if the external
classifier throws, the exception is caught and `("en", 0.0)` is returned;
otherwise the classifier result is returned.  The external call is
modelled as an `Except` value. -/
def detect_language (modelLoaded : Bool)
    (classify : Except String (String × ℚ)) : String × ℚ :=
  if modelLoaded = false then ("en", 0)
  else
    match classify with
    | .error _ => ("en", 0)
    | .ok r => r

/-- `LanguageSwitchSystem.process_audio_chunk` (main.py lines 57-81).
`detect` stands for `language_detector.detect_language` applied to the
tensor, `transcribe` for `speech_recognizer.transcribe_audio` applied to
the audio with the detected language.  Returns the optional transcription
and the new `current_language`. -/
def process_audio_chunk (detect : List ℚ → String × ℚ)
    (transcribe : String → String) (threshold : ℚ)
    (currentLanguage : String) (audio : List ℚ) : Option String × String :=
  if audio.isEmpty then (none, currentLanguage)
  else
    let det := detect audio
    if is_confidence_high threshold det.2 then
      let newLanguage :=
        if det.1 ≠ currentLanguage then det.1 else currentLanguage
      (some (transcribe det.1), newLanguage)
    else
      (none, currentLanguage)

/-- C2: the language-switch decision: the active language changes after
`process_audio_chunk` if and only if the detected confidence is ≥ the
threshold (inclusive boundary, the comparison is `>=`) and the detected
language differs from the current one. -/
theorem switch_decision_iff (detect : List ℚ → String × ℚ)
    (transcribe : String → String) (threshold : ℚ)
    (cur : String) (audio : List ℚ) (h : audio ≠ []) :
    (process_audio_chunk detect transcribe threshold cur audio).2 ≠ cur ↔
      (threshold ≤ (detect audio).2 ∧ (detect audio).1 ≠ cur) := by
  unfold process_audio_chunk
  have he : audio.isEmpty = false := by simpa using h
  simp only [he, Bool.false_eq_true, if_false, is_confidence_high]
  by_cases hc : threshold ≤ (detect audio).2
  · by_cases hl : (detect audio).1 ≠ cur <;> simp [hc, hl]
  · simp [hc]

theorem switch_decision_iff_witness :
    ([ (0:ℚ) ] ≠ [] ) ∧
    ((process_audio_chunk (fun _ => ("hi", 4/5)) (fun l => l) (4/5)
        "en" [(0:ℚ)]).2 ≠ "en" ↔
      ((4:ℚ)/5 ≤ ((fun (_ : List ℚ) => (("hi" : String), (4:ℚ)/5)) [(0:ℚ)]).2 ∧
        ((fun (_ : List ℚ) => (("hi" : String), (4:ℚ)/5)) [(0:ℚ)]).1 ≠ "en")) :=
  ⟨by simp,
   switch_decision_iff (fun _ => ("hi", 4/5)) (fun l => l) (4/5) "en"
     [(0:ℚ)] (by simp)⟩

/-- C1 counterexample: with threshold 0.8 and a detection confidence of
0.5 (below threshold), `process_audio_chunk` does return the state
unchanged, but it produces NO transcription (`none`): the claim that a
below-threshold window "is still transcribed under the currently active
language" is false on the code. -/
theorem low_confidence_transcribed_cex :
    process_audio_chunk (fun _ => ("hi", 1/2)) (fun l => l) (4/5)
      "en" [(0:ℚ)] = (none, "en") ∧ ((1:ℚ)/2 < 4/5) := by
  constructor
  · simp [process_audio_chunk, is_confidence_high]
    norm_num
  · norm_num

/-- Shared helper: `process_audio_chunk` returns `(none, cur)` whenever
the detected confidence is strictly below the threshold. -/
lemma process_skip_of_low_confidence (detect : List ℚ → String × ℚ)
    (transcribe : String → String) (threshold : ℚ)
    (cur : String) (audio : List ℚ)
    (h : (detect audio).2 < threshold) :
    process_audio_chunk detect transcribe threshold cur audio =
      (none, cur) := by
  unfold process_audio_chunk
  by_cases he : audio.isEmpty
  · simp [he]
  · simp only [he, Bool.false_eq_true, if_false]
    have hc : is_confidence_high threshold (detect audio).2 = false := by
      simp [is_confidence_high, not_le.mpr h]
    simp [hc]

/-- C1 (amended): a below-threshold detection leaves the active language
unchanged AND suppresses transcription: `process_audio_chunk` returns
`(none, currentLanguage)` whenever the detected confidence is strictly
below the threshold. -/
theorem low_confidence_skips_window (detect : List ℚ → String × ℚ)
    (transcribe : String → String) (threshold : ℚ)
    (cur : String) (audio : List ℚ)
    (h : (detect audio).2 < threshold) :
    process_audio_chunk detect transcribe threshold cur audio =
      (none, cur) :=
  process_skip_of_low_confidence detect transcribe threshold cur audio h

theorem low_confidence_skips_window_witness :
    (((fun (_ : List ℚ) => (("hi" : String), (1:ℚ)/2)) [(0:ℚ)]).2 < 4/5) ∧
    process_audio_chunk (fun _ => ("hi", 1/2)) (fun l => l) (4/5)
      "en" [(0:ℚ)] = (none, "en") :=
  ⟨by norm_num,
   low_confidence_skips_window (fun _ => ("hi", 1/2)) (fun l => l) (4/5)
     "en" [(0:ℚ)] (by norm_num)⟩

/-- C7 counterexample: when the external classifier throws,
`detect_language` returns the fallback `("en", 0)` (the exception is not
propagated), but the window is NOT "processed under the previously
active language": with current language "hi" the pipeline produces no
transcription at all (`none`) - the window is skipped. -/
theorem collaborator_error_cex :
    detect_language true (.error "boom") = ("en", 0) ∧
    (process_audio_chunk (fun _ => detect_language true (.error "boom"))
      (fun l => l) (4/5) "hi" [(0:ℚ)]).1 = none := by
  constructor
  · rfl
  · simp [process_audio_chunk, detect_language, is_confidence_high]
    norm_num

/-- C7 (amended): a collaborator error (or an unloaded model) never
propagates: `detect_language` returns the fallback `("en", 0.0)`, and
for any positive threshold the affected window is then skipped - no
transcription is produced and the active language is left unchanged. -/
theorem collaborator_error_fallback (msg : String)
    (classify : Except String (String × ℚ))
    (transcribe : String → String) (threshold : ℚ)
    (cur : String) (audio : List ℚ) (h : 0 < threshold) :
    detect_language true (.error msg) = ("en", 0) ∧
    detect_language false classify = ("en", 0) ∧
    process_audio_chunk (fun _ => detect_language true (.error msg))
      transcribe threshold cur audio = (none, cur) ∧
    process_audio_chunk (fun _ => detect_language false classify)
      transcribe threshold cur audio = (none, cur) := by
  refine ⟨rfl, rfl, ?_, ?_⟩ <;>
    exact process_skip_of_low_confidence _ _ _ _ _ (by simpa [detect_language])

theorem collaborator_error_fallback_witness :
    (0 < (4:ℚ)/5) ∧
    (detect_language true (.error "boom") = ("en", 0) ∧
     detect_language false (.ok ("fr", 1)) = ("en", 0) ∧
     process_audio_chunk (fun _ => detect_language true (.error "boom"))
       (fun l => l) (4/5) "hi" [(0:ℚ)] = (none, "hi") ∧
     process_audio_chunk (fun _ => detect_language false (.ok ("fr", 1)))
       (fun l => l) (4/5) "hi" [(0:ℚ)] = (none, "hi")) :=
  ⟨by norm_num,
   collaborator_error_fallback "boom" (.ok ("fr", 1)) (fun l => l) (4/5)
     "hi" [(0:ℚ)] (by norm_num)⟩

/-- `WorkingRealTimeSystem._audio_callback` (realtime_working.py lines
77-81) acting on the frame queue created by `__init__` (line 16:
`queue.Queue()`, constructed with no `maxsize`, hence unbounded): when
recording, the incoming frame is appended at the tail; nothing is ever
removed by the producer. A frame is a byte string. -/
def audio_callback (isRecording : Bool) (audioQueue : List (List ℕ))
    (frame : List ℕ) : List (List ℕ) :=
  if isRecording then audioQueue ++ [frame] else audioQueue

/-- C3 counterexample: pushing five frames into the empty frame queue
retains all five in FIFO order - the queue (a `queue.Queue()` with no
`maxsize`) has no capacity bound and never drops its oldest element, so
no capacity `C ≤ 4` bounds it and the claimed oldest-frame-dropping
never happens. -/
theorem frame_queue_unbounded_cex :
    List.foldl (audio_callback true) []
        [[1], [2], [3], [4], [5]] = [[1], [2], [3], [4], [5]] ∧
    (List.foldl (audio_callback true) []
        [[1], [2], [3], [4], [5]]).length = 5 := by
  constructor <;> rfl

/-- C3 (amended): the producer's push never blocks because the frame
queue is unbounded: pushing any sequence of frames appends them all in
FIFO order, the queue grows by exactly the number of pushed frames, and
no queued frame is ever dropped. -/
theorem frame_queue_push_retains_all (q : List (List ℕ))
    (frames : List (List ℕ)) :
    List.foldl (audio_callback true) q frames = q ++ frames ∧
    (List.foldl (audio_callback true) q frames).length =
      q.length + frames.length := by
  have h : ∀ (fs : List (List ℕ)) (q₀ : List (List ℕ)),
      List.foldl (audio_callback true) q₀ fs = q₀ ++ fs := by
    intro fs
    induction fs with
    | nil => intro q₀; simp
    | cons f fs ih =>
        intro q₀
        simp [audio_callback, ih]
  refine ⟨h frames q, ?_⟩
  simp [h frames q]

/-- The transcript-stabilizing step of
`WorkingRealTimeSystem._process_audio_queue` (realtime_working.py lines
226-235): a window transcription is emitted downstream (printed and
spoken) exactly when it is non-empty (Python truthiness), differs from
`last_transcription`, and has length > 2; `last_transcription` is
updated only on emission. Returns (emitted?, new last_transcription). -/
def stabilizer_step (lastTranscription : String)
    (transcription : String) : Bool × String :=
  if transcription ≠ "" ∧ transcription ≠ lastTranscription ∧
      2 < transcription.length then
    (true, transcription)
  else
    (false, lastTranscription)

/-- The emission gate of `SimpleWorkingSystem.run` (simple_working.py
line 122): `if transcription and len(transcription) > 2`. -/
def simple_emit_gate (transcription : String) : Bool :=
  !transcription.isEmpty && decide (2 < transcription.length)

/-- C4 counterexample: feeding the stabilizer the transcript "hi" twice
in a row from the initial state (`last_transcription = ""`) yields ZERO
downstream emissions, not exactly one: "hi" has length ≤ 2 and is
discarded both times. -/
theorem stabilizer_duplicate_cex :
    (stabilizer_step "" "hi").1 = false ∧
    (stabilizer_step (stabilizer_step "" "hi").2 "hi").1 = false := by
  constructor <;> rfl

/-- C4 (amended): feeding the stabilizer the same transcript twice in a
row yields AT MOST one emission - the second feed never emits - and it
yields exactly one iff the transcript is non-empty, differs from the
previously emitted one, and is longer than 2 characters; the
`last_transcription` memory is updated on emission and only then. -/
theorem stabilizer_dedupe (last t : String) :
    (stabilizer_step (stabilizer_step last t).2 t).1 = false ∧
    ((stabilizer_step last t).1 = true ↔
      (t ≠ "" ∧ t ≠ last ∧ 2 < t.length)) ∧
    ((stabilizer_step last t).1 = false →
      (stabilizer_step last t).2 = last) ∧
    ((stabilizer_step last t).1 = true →
      (stabilizer_step last t).2 = t) := by
  refine ⟨?_, ?_, ?_, ?_⟩ <;>
    by_cases h : t ≠ "" ∧ t ≠ last ∧ 2 < t.length <;>
      simp [stabilizer_step, h]

/-- C8: a transcript of length at most 2 never reaches the dispatcher:
the stabilizer of `realtime_working.py` does not emit it (no print, no
synthesis), and neither does the gate of `simple_working.py`. -/
theorem short_transcript_never_emitted (last t : String)
    (h : t.length ≤ 2) :
    (stabilizer_step last t).1 = false ∧ simple_emit_gate t = false := by
  have h2 : ¬ (2 < t.length) := not_lt.mpr h
  constructor
  · simp [stabilizer_step, h2]
  · simp [simple_emit_gate, h2]

theorem short_transcript_never_emitted_witness :
    ("hi".length ≤ 2) ∧
    ((stabilizer_step "prev" "hi").1 = false ∧
      simple_emit_gate "hi" = false) :=
  ⟨by decide, short_transcript_never_emitted "prev" "hi" (by decide)⟩

/-- One sub-chunk outcome of the Vosk loop in
`WorkingRealTimeSystem._process_audio_queue` (realtime_working.py lines
200-215): either `AcceptWaveform` returned true and `Result()` gave
`text`, or it returned false and `PartialResult()` gave the interim
hypothesis `text`. -/
inductive SubChunkResult where
  | accepted (text : String)
  | interim (text : String)
deriving DecidableEq

/-- The per-sub-chunk update of `transcription` (realtime_working.py
lines 204-213): a non-empty accepted `Result` text replaces
`transcription` unconditionally; a non-empty `PartialResult` text
replaces it only when strictly longer. -/
def chunk_step (transcription : String) (ev : SubChunkResult) : String :=
  match ev with
  | .accepted text => if text ≠ "" then text else transcription
  | .interim text =>
      if text ≠ "" ∧ transcription.length < text.length then text
      else transcription

/-- The transcription kept at the end of one window
(realtime_working.py lines 196-224): fold `chunk_step` over the
sub-chunk outcomes starting from `""`, then let a non-empty
`FinalResult` text supersede the tracked text. -/
def window_transcription (evs : List SubChunkResult)
    (finalText : String) : String :=
  let tr := evs.foldl chunk_step ""
  if finalText ≠ "" then finalText else tr

/-- The interim (`PartialResult`) hypotheses of a window's sub-chunks,
in order. -/
def interims_of : List SubChunkResult → List String
  | [] => []
  | .accepted _ :: rest => interims_of rest
  | .interim text :: rest => text :: interims_of rest

/-- The accepted (`Result`) texts of a window's sub-chunks, in order. -/
def accepted_texts_of : List SubChunkResult → List String
  | [] => []
  | .accepted text :: rest => text :: accepted_texts_of rest
  | .interim _ :: rest => accepted_texts_of rest

/-- Modelled from the spec's words, for comparison only: "track the best
(longest non-empty) partial text seen across sub-chunks of the current
window". -/
def longest_interim_spec (texts : List String) : String :=
  texts.foldl
    (fun best text =>
      if text ≠ "" ∧ best.length < text.length then text else best) ""

/-- C5 counterexample: with sub-chunk outcomes [interim "hello",
accepted "hi"] and an empty final result, the code keeps "hi" (the later
non-empty accepted text replaces the tracked text regardless of length),
not the longest non-empty interim hypothesis "hello". -/
theorem window_transcription_cex :
    window_transcription
        [SubChunkResult.interim "hello", SubChunkResult.accepted "hi"]
        "" = "hi" ∧
    longest_interim_spec (interims_of
        [SubChunkResult.interim "hello", SubChunkResult.accepted "hi"])
      = "hello" ∧
    ("hi" : String) ≠ "hello" := by
  refine ⟨rfl, rfl, by decide⟩

/-- Helper for C5: folding `chunk_step` over sub-chunks none of which
carries a non-empty accepted text yields a value that is the initial
accumulator or one of the interim hypotheses, is at least as long as the
accumulator, and is at least as long as every interim hypothesis. -/
lemma chunk_fold_spec (evs : List SubChunkResult) (tr : String)
    (hacc : (accepted_texts_of evs).all (fun t => t == "") = true) :
    (evs.foldl chunk_step tr = tr ∨
      evs.foldl chunk_step tr ∈ interims_of evs) ∧
    tr.length ≤ (evs.foldl chunk_step tr).length ∧
    ∀ p ∈ interims_of evs,
      p.length ≤ (evs.foldl chunk_step tr).length := by
  induction evs generalizing tr with
  | nil => simp [interims_of]
  | cons ev rest ih =>
    cases ev with
    | accepted t =>
      simp only [accepted_texts_of, List.all_cons, Bool.and_eq_true,
        beq_iff_eq] at hacc
      obtain ⟨ht, hrest⟩ := hacc
      subst ht
      have hstep : chunk_step tr (.accepted "") = tr := by
        simp [chunk_step]
      rw [List.foldl_cons, hstep]
      simpa [interims_of] using ih tr hrest
    | interim p =>
      have hrest : (accepted_texts_of rest).all (fun t => t == "") = true := by
        simpa [accepted_texts_of] using hacc
      rw [List.foldl_cons]
      obtain ⟨h1, h2, h3⟩ := ih (chunk_step tr (.interim p)) hrest
      by_cases hc : p ≠ "" ∧ tr.length < p.length
      · have hstep : chunk_step tr (.interim p) = p := by
          simp [chunk_step, hc]
        rw [hstep] at h1 h2 h3 ⊢
        refine ⟨?_, ?_, ?_⟩
        · rcases h1 with h1 | h1
          · exact Or.inr (by simp [interims_of, h1])
          · exact Or.inr (by simp [interims_of, h1])
        · exact le_trans (le_of_lt hc.2) h2
        · intro q hq
          rcases (by simpa [interims_of] using hq : q = p ∨ q ∈ interims_of rest) with
            hq | hq
          · subst hq; exact h2
          · exact h3 q hq
      · have hstep : chunk_step tr (.interim p) = tr := by
          simp only [chunk_step, if_neg hc]
        rw [hstep] at h1 h2 h3 ⊢
        refine ⟨?_, h2, ?_⟩
        · rcases h1 with h1 | h1
          · exact Or.inl h1
          · exact Or.inr (by simp [interims_of, h1])
        · intro q hq
          rcases (by simpa [interims_of] using hq : q = p ∨ q ∈ interims_of rest) with
            hq | hq
          · subst hq
            rcases not_and_or.mp hc with hp | hp
            · have : q = "" := not_not.mp hp
              simp [this]
            · exact le_trans (not_lt.mp hp) h2
          · exact h3 q hq

/-- C5 (amended): provided no sub-chunk of the window produced a
non-empty accepted (`AcceptWaveform`/`Result`) text - a non-empty
accepted text replaces the tracked transcription unconditionally, as the
counterexample shows - the transcription kept at the end of the window
is the longest non-empty interim (partial) hypothesis seen across the
sub-chunks (it is one of them, or empty when all are empty, and at least
as long as each of them), except that a non-empty result of the final
`FinalResult` call supersedes any interim hypothesis. -/
theorem window_keeps_longest_interim (evs : List SubChunkResult)
    (finalText : String)
    (hacc : (accepted_texts_of evs).all (fun t => t == "") = true) :
    (finalText ≠ "" → window_transcription evs finalText = finalText) ∧
    (finalText = "" →
      (window_transcription evs "" = "" ∨
        window_transcription evs "" ∈ interims_of evs) ∧
      ∀ p ∈ interims_of evs,
        p.length ≤ (window_transcription evs "").length) := by
  constructor
  · intro hf
    simp [window_transcription, hf]
  · intro _
    have h := chunk_fold_spec evs "" hacc
    have hw : window_transcription evs "" = evs.foldl chunk_step "" := by
      simp [window_transcription]
    rw [hw]
    exact ⟨h.1.imp_left (fun h1 => h1), h.2.2⟩

theorem window_keeps_longest_interim_witness :
    ((accepted_texts_of
        [SubChunkResult.interim "ab", SubChunkResult.interim "hello"]).all
      (fun t => t == "") = true) ∧
    ((("" : String) ≠ "" →
      window_transcription
        [SubChunkResult.interim "ab", SubChunkResult.interim "hello"] ""
        = "") ∧
     (("" : String) = "" →
      (window_transcription
          [SubChunkResult.interim "ab", SubChunkResult.interim "hello"] ""
          = "" ∨
        window_transcription
          [SubChunkResult.interim "ab", SubChunkResult.interim "hello"] ""
          ∈ interims_of
            [SubChunkResult.interim "ab", SubChunkResult.interim "hello"]) ∧
      ∀ p ∈ interims_of
          [SubChunkResult.interim "ab", SubChunkResult.interim "hello"],
        p.length ≤ (window_transcription
          [SubChunkResult.interim "ab", SubChunkResult.interim "hello"]
          "").length)) :=
  ⟨by decide,
   window_keeps_longest_interim
     [SubChunkResult.interim "ab", SubChunkResult.interim "hello"] ""
     (by decide)⟩

/-- One iteration of the buffering in
`RealTimeLanguageSwitch.process_audio_queue`
(approach_4_realtime_fixed.py lines 96-103): extend the buffer with the
dequeued chunk; when the buffer holds at least `buffer_size` (= `W`)
samples, emit `buffer[:W]` as a window and keep `buffer[W//2:]` as the
seed of the next window ("Keep overlap"). The state is
(buffer, emitted windows so far). -/
def paq_step (W : ℕ) (st : List ℚ × List (List ℚ)) (chunk : List ℚ) :
    List ℚ × List (List ℚ) :=
  let buf := st.1 ++ chunk
  if W ≤ buf.length then (buf.drop (W / 2), st.2 ++ [buf.take W])
  else (buf, st.2)

/-- The windowing loop of `RealTimeLanguageSwitch.process_audio_queue`
over a finite sequence of dequeued chunks, starting from an empty
buffer. -/
def process_audio_queue (W : ℕ) (chunks : List (List ℚ)) :
    List ℚ × List (List ℚ) :=
  chunks.foldl (paq_step W) ([], [])

/-- Invariant of the windowing loop: every emitted window has length
`W`; consecutive windows overlap (the next window starts with the
previous window's trailing `W - W/2` samples); and the trailing part of
the last emitted window is a prefix of the current buffer. -/
def WindowInv (W : ℕ) (st : List ℚ × List (List ℚ)) : Prop :=
  (∀ w ∈ st.2, w.length = W) ∧
  List.Chain' (fun a b => b.take (W - W / 2) = a.drop (W / 2)) st.2 ∧
  ∀ w ∈ st.2.getLast?, w.drop (W / 2) <+: st.1

lemma paq_step_inv (W : ℕ) (st : List ℚ × List (List ℚ))
    (chunk : List ℚ) (h : WindowInv W st) :
    WindowInv W (paq_step W st chunk) := by
  obtain ⟨hlen, hchain, hpre⟩ := h
  unfold paq_step
  by_cases hW : W ≤ (st.1 ++ chunk).length
  · simp only [if_pos hW]
    refine ⟨?_, ?_, ?_⟩
    · intro w hw
      rcases List.mem_append.mp hw with hw | hw
      · exact hlen w hw
      · have hw' : w = (st.1 ++ chunk).take W := by simpa using hw
        subst hw'
        simp only [List.length_take]
        omega
    · rw [List.chain'_append]
      refine ⟨hchain, List.chain'_singleton _, ?_⟩
      intro x hx y hy
      have hy' : (st.1 ++ chunk).take W = y := by simpa using hy
      subst hy'
      have hxpre : x.drop (W / 2) <+: st.1 ++ chunk :=
        (hpre x hx).trans (List.prefix_append st.1 chunk)
      have hxlen : x.length = W := hlen x (List.mem_of_mem_getLast? hx)
      have hdlen : (x.drop (W / 2)).length = W - W / 2 := by
        simp [hxlen]
      have h1 : ((st.1 ++ chunk).take W).take (W - W / 2) =
          (st.1 ++ chunk).take (W - W / 2) := by
        rw [List.take_take]
        congr 1
        omega
      rw [h1, List.prefix_iff_eq_take] at *
      rw [hxpre, hdlen]
    · intro w hw
      rw [List.getLast?_concat] at hw
      have hw' : (st.1 ++ chunk).take W = w := by simpa using hw
      subst hw'
      rw [List.drop_take]
      exact List.take_prefix _ _
  · simp only [if_neg hW]
    refine ⟨hlen, hchain, ?_⟩
    intro w hw
    exact (hpre w hw).trans (List.prefix_append st.1 chunk)

lemma paq_fold_inv (W : ℕ) (chunks : List (List ℚ)) :
    WindowInv W (process_audio_queue W chunks) := by
  have main : ∀ (cs : List (List ℚ)) (st : List ℚ × List (List ℚ)),
      WindowInv W st → WindowInv W (List.foldl (paq_step W) st cs) := by
    intro cs
    induction cs with
    | nil => intro st h; exact h
    | cons c cs ih => intro st h; exact ih _ (paq_step_inv W st c h)
  exact main chunks ([], []) ⟨by simp, List.chain'_nil, by simp⟩

/-- C6: overlap invariant of the windower of
`approach_4_realtime_fixed.py` (the code retains `buffer[W//2:]`, a 50%
overlap): for an even window size `W`, any two consecutive emitted
windows both have length `W` and the later one begins with exactly the
last `W/2` samples of the earlier one. -/
theorem windower_overlap (W : ℕ) (chunks : List (List ℚ))
    (hW : W % 2 = 0) (pre suf : List (List ℚ)) (w₁ w₂ : List ℚ)
    (hsplit : (process_audio_queue W chunks).2 = pre ++ w₁ :: w₂ :: suf) :
    w₂.take (W / 2) = w₁.drop (W / 2) ∧
    w₁.length = W ∧ w₂.length = W := by
  obtain ⟨hlen, hchain, -⟩ := paq_fold_inv W chunks
  rw [hsplit] at hlen hchain
  have hR : w₂.take (W - W / 2) = w₁.drop (W / 2) :=
    (List.chain'_cons.mp (List.chain'_append.mp hchain).2.1).1
  have heq : W - W / 2 = W / 2 := by omega
  rw [heq] at hR
  exact ⟨hR, hlen w₁ (by simp), hlen w₂ (by simp)⟩

theorem windower_overlap_witness :
    (4 % 2 = 0) ∧
    ((process_audio_queue 4 [[1, 2, 3, 4], [5, 6, 7, 8]]).2 =
      [] ++ [1, 2, 3, 4] :: [3, 4, 5, 6] :: []) ∧
    (([3, 4, 5, 6] : List ℚ).take (4 / 2) =
        ([1, 2, 3, 4] : List ℚ).drop (4 / 2) ∧
      ([1, 2, 3, 4] : List ℚ).length = 4 ∧
      ([3, 4, 5, 6] : List ℚ).length = 4) :=
  ⟨rfl, rfl,
   windower_overlap 4 [[1, 2, 3, 4], [5, 6, 7, 8]] rfl [] []
     [1, 2, 3, 4] [3, 4, 5, 6] rfl⟩

/-- The value of one signed 16-bit little-endian sample given its two
bytes, as `np.frombuffer(audio_bytes, dtype=np.int16)` reads it
(audio_handler.py line 55). -/
def int16_of_bytes (lo hi : ℕ) : ℤ :=
  if lo + 256 * hi < 32768 then ((lo + 256 * hi : ℕ) : ℤ)
  else ((lo + 256 * hi : ℕ) : ℤ) - 65536

/-- `np.frombuffer(audio_bytes, dtype=np.int16)`: read the byte string
two bytes at a time, little-endian. -/
def decode_int16_le : List ℕ → List ℤ
  | lo :: hi :: rest => int16_of_bytes lo hi :: decode_int16_le rest
  | _ => []

/-- `AudioHandler.bytes_to_tensor` (audio_handler.py lines 51-62):
decode int16 samples and normalize by dividing by 32768.0; a byte string
of odd length makes `np.frombuffer` raise, the exception is caught and
the empty tensor is returned. -/
def bytes_to_tensor (audioBytes : List ℕ) : List ℚ :=
  if audioBytes.length % 2 = 1 then []
  else (decode_int16_le audioBytes).map (fun s : ℤ => (s : ℚ) / 32768)

/-- `astype(np.int16)` applied to a float value within int16 range:
C-style truncation toward zero. -/
def trunc_to_int (q : ℚ) : ℤ :=
  if q < 0 then ⌈q⌉ else ⌊q⌋

/-- The denormalization `(audio_array * 32768.0).astype(np.int16)` of
`AudioHandler.save_audio` (audio_handler.py line 69) and of
`LanguageSwitchSystem.process_file` (main.py line 145). -/
def save_audio_denormalize (t : List ℚ) : List ℤ :=
  t.map (fun q => trunc_to_int (q * 32768))

/-- `np.int16.tobytes()`: one sample to its two's-complement
little-endian byte pair. -/
def int16_to_bytes (s : ℤ) : List ℕ :=
  let u := (s % 65536).toNat
  [u % 256, u / 256]

/-- A whole int16 sample sequence to its raw byte string
(`.astype(np.int16).tobytes()`). -/
def encode_int16_le (samples : List ℤ) : List ℕ :=
  samples.flatMap int16_to_bytes

/-- Every sample decoded from valid bytes lies in the int16 range. -/
lemma decode_int16_le_bounds (bytes : List ℕ)
    (hb : bytes.all (fun b => decide (b < 256)) = true) :
    ∀ s ∈ decode_int16_le bytes, -32768 ≤ s ∧ s ≤ 32767 := by
  induction bytes using decode_int16_le.induct with
  | case1 lo hi rest ih =>
      simp only [List.all_cons, Bool.and_eq_true, decide_eq_true_eq] at hb
      intro s hs
      rcases List.mem_cons.mp hs with hs | hs
      · subst hs
        unfold int16_of_bytes
        split <;> omega
      · exact ih (by simpa using hb.2.2) s hs
  | case2 bytes h =>
      intro s hs
      simp [decode_int16_le] at hs

/-- C9: for every byte string (each byte < 256) of 16-bit little-endian
PCM samples, `bytes_to_tensor` yields samples normalized to the interval
[-1, 1] (each int16 sample divided by 32768). -/
theorem bytes_to_tensor_normalized (audioBytes : List ℕ)
    (hb : audioBytes.all (fun b => decide (b < 256)) = true) :
    ∀ q ∈ bytes_to_tensor audioBytes, -1 ≤ q ∧ q ≤ 1 := by
  intro q hq
  unfold bytes_to_tensor at hq
  split at hq
  · simp at hq
  · obtain ⟨s, hs, rfl⟩ := List.mem_map.mp hq
    obtain ⟨h1, h2⟩ := decode_int16_le_bounds audioBytes hb s hs
    constructor
    · rw [le_div_iff₀ (by norm_num : (0:ℚ) < 32768)]
      have : (-32768 : ℚ) ≤ (s : ℚ) := by exact_mod_cast h1
      linarith
    · rw [div_le_one (by norm_num : (0:ℚ) < 32768)]
      have : (s : ℚ) ≤ 32767 := by exact_mod_cast h2
      linarith

theorem bytes_to_tensor_normalized_witness :
    (([0, 128, 255, 127] : List ℕ).all (fun b => decide (b < 256)) = true) ∧
    (∀ q ∈ bytes_to_tensor [0, 128, 255, 127], -1 ≤ q ∧ q ≤ 1) :=
  ⟨by decide, bytes_to_tensor_normalized [0, 128, 255, 127] (by decide)⟩

/-- Encoding always produces an even number of bytes. -/
lemma encode_int16_le_length (samples : List ℤ) :
    (encode_int16_le samples).length % 2 = 0 := by
  induction samples with
  | nil => rfl
  | cons s ss ih =>
      simp only [encode_int16_le, List.flatMap_cons, List.length_append]
        at ih ⊢
      simp only [int16_to_bytes, List.length_cons, List.length_nil]
      omega

/-- Round trip of a single in-range int16 sample through its
little-endian byte pair. -/
lemma int16_bytes_roundtrip (s : ℤ) (h1 : -32768 ≤ s) (h2 : s < 32768) :
    int16_of_bytes (((s % 65536).toNat) % 256) (((s % 65536).toNat) / 256)
      = s := by
  unfold int16_of_bytes
  split <;> omega

/-- Decoding inverts encoding on in-range int16 sample sequences. -/
lemma decode_encode_int16_le (samples : List ℤ)
    (h : samples.all
      (fun s => decide (-32768 ≤ s) && decide (s < 32768)) = true) :
    decode_int16_le (encode_int16_le samples) = samples := by
  induction samples with
  | nil => rfl
  | cons s ss ih =>
      simp only [List.all_cons, Bool.and_eq_true, decide_eq_true_eq] at h
      obtain ⟨⟨h1, h2⟩, hrest⟩ := h
      have hcons : encode_int16_le (s :: ss) =
          ((s % 65536).toNat % 256) :: ((s % 65536).toNat / 256) ::
            encode_int16_le ss := by
        simp [encode_int16_le, int16_to_bytes]
      rw [hcons, decode_int16_le, int16_bytes_roundtrip s h1 h2,
        ih (by simpa using hrest)]

/-- C10: normalization round-trips exactly: encoding in-range int16
samples to raw bytes, normalizing with `bytes_to_tensor`, and
denormalizing via `save_audio_denormalize` (multiply by 32768, cast back
to int16) recovers the original samples unchanged. -/
theorem normalize_denormalize_roundtrip (samples : List ℤ)
    (h : samples.all
      (fun s => decide (-32768 ≤ s) && decide (s < 32768)) = true) :
    save_audio_denormalize (bytes_to_tensor (encode_int16_le samples)) =
      samples := by
  unfold bytes_to_tensor
  rw [if_neg (by have := encode_int16_le_length samples; omega)]
  rw [decode_encode_int16_le samples h]
  unfold save_audio_denormalize
  rw [List.map_map]
  have key : ∀ s : ℤ, trunc_to_int ((s : ℚ) / 32768 * 32768) = s := by
    intro s
    have hmul : ((s : ℚ) / 32768 * 32768) = (s : ℚ) :=
      div_mul_cancel₀ _ (by norm_num)
    rw [hmul]
    unfold trunc_to_int
    split
    · exact Int.ceil_intCast s
    · exact Int.floor_intCast s
  refine (List.map_congr_left ?_).trans (List.map_id samples)
  intro s _
  simpa [Function.comp] using key s

theorem normalize_denormalize_roundtrip_witness :
    (([-32768, -1, 0, 1, 32767] : List ℤ).all
      (fun s => decide (-32768 ≤ s) && decide (s < 32768)) = true) ∧
    save_audio_denormalize
        (bytes_to_tensor (encode_int16_le [-32768, -1, 0, 1, 32767])) =
      [-32768, -1, 0, 1, 32767] :=
  ⟨by decide,
   normalize_denormalize_roundtrip [-32768, -1, 0, 1, 32767] (by decide)⟩
